import Mathlib

/-!
Shallow embedding of the ART1 network of `noise_art.py` (class `ART`,
identical in the second source file): constructor `ART.__init__` and the
single operation `ART.learn`.

Modelling conventions, chosen once and used for every claim:

* Vectors and matrices are rational-valued lists.  `Wf` (an `m × n` NumPy
  array read only by rows `Wf[i,:]` and in the product `np.dot(Wf, X)`) is
  stored as its list of `m` rows of length `n`; `Wb` (an `n × m` array read
  and written only by columns `Wb[:,i]`) is stored column-major, as its
  list of `m` columns of length `n`, so `Wb.getD i []` is the source's
  `Wb[:,i]`.
* `np.argsort(F2[:active])[::-1]` is modelled as sorting the indices
  `0, …, active-1` by descending activation, ties toward the larger
  index — the reverse of a stable ascending argsort.
* IEEE floats are modelled by `ℚ`.  The one place the two can differ on
  the inputs the program is written for (nonnegative vectors) is the match
  ratio `d = (Wb[:,i]*X).sum()/X.sum()` when `X.sum() = 0`: NumPy then
  produces NaN, and `NaN >= rho` is `False`, so the vigilance test is
  embedded as `X.sum ≠ 0 ∧ rho ≤ d`, which is equally `False` there.
* `np.dot(self.Wf, X)` raises a `ValueError` when `len(X) ≠ n`, before any
  state is mutated; `learn` is therefore embedded as returning
  `Except LearnError _`, with `.error .shapeMismatch` on that path and
  `.ok (new state, prototype?, index?)` on every other path.  No other
  statement of `learn` can raise.
-/

namespace ARTNet

/-- Dot product of two equal-length vectors: `np.dot(v, w)`, also
`(v*w).sum()`. -/
def dot (v w : List ℚ) : ℚ := (List.zipWith (· * ·) v w).sum

/-- Element-wise (Hadamard) product `v * w` of two equal-length vectors. -/
def hadamard (v w : List ℚ) : List ℚ := List.zipWith (· * ·) v w

/-- The state of an `ART` network: the fields set by `ART.__init__`.
`Wf` is stored as its `m` rows, `Wb` as its `m` columns (see the module
docstring). -/
structure ART where
  n : ℕ
  m : ℕ
  rho : ℚ
  F1 : List ℚ
  F2 : List ℚ
  Wf : List (List ℚ)
  Wb : List (List ℚ)
  active : ℕ
  deriving DecidableEq

/-- `np.dot(Wf, X)`: the activation of each category, row `i` of `Wf`
dotted with the input. -/
def activations (Wf : List (List ℚ)) (X : List ℚ) : List ℚ :=
  Wf.map (fun row => dot row X)

/-- The index order produced by `np.argsort(keys)[::-1]`: `i` before `j`
when `keys[i] > keys[j]`, ties toward the larger index (the reverse of a
stable ascending argsort). -/
def rankRel (keys : List ℚ) (i j : ℕ) : Prop :=
  keys.getD j 0 < keys.getD i 0 ∨ (keys.getD i 0 = keys.getD j 0 ∧ j ≤ i)

instance rankRel.decidableRel (keys : List ℚ) : DecidableRel (rankRel keys) := fun i j => by
  unfold rankRel; infer_instance

instance rankRel.isTotal (keys : List ℚ) : IsTotal ℕ (rankRel keys) where
  total i j := by
    rcases lt_trichotomy (keys.getD i 0) (keys.getD j 0) with h | h | h
    · exact Or.inr (Or.inl h)
    · rcases Nat.le_total i j with hij | hij
      · exact Or.inr (Or.inr ⟨h.symm, hij⟩)
      · exact Or.inl (Or.inr ⟨h, hij⟩)
    · exact Or.inl (Or.inl h)

instance rankRel.isTrans (keys : List ℚ) : IsTrans ℕ (rankRel keys) where
  trans i j k hij hjk := by
    rcases hij with hij | ⟨hij, hji⟩
    · rcases hjk with hjk | ⟨hjk, hkj⟩
      · exact Or.inl (lt_trans hjk hij)
      · exact Or.inl (hjk ▸ hij)
    · rcases hjk with hjk | ⟨hjk, hkj⟩
      · exact Or.inl (hij ▸ hjk)
      · exact Or.inr ⟨hij.trans hjk, le_trans hkj hji⟩

/-- `I = np.argsort(F2[:active].ravel())[::-1]` with `keys = F2[:active]`:
all indices below `keys.length`, ranked by descending key. -/
def rankDesc (keys : List ℚ) : List ℕ :=
  List.insertionSort (rankRel keys) (List.range keys.length)

/-- The vigilance test `d >= self.rho` for candidate `i`, with
`d = (self.Wb[:,i]*X).sum()/X.sum()`.  A zero input sum makes `d` NaN in
NumPy and the comparison `False`; here that case is an explicit conjunct
(see the module docstring). -/
def resonates (Wb : List (List ℚ)) (rho : ℚ) (X : List ℚ) (i : ℕ) : Prop :=
  X.sum ≠ 0 ∧ rho ≤ dot (Wb.getD i []) X / X.sum

instance resonates.decidable (Wb : List (List ℚ)) (rho : ℚ) (X : List ℚ) (i : ℕ) :
    Decidable (resonates Wb rho X i) := by
  unfold resonates; infer_instance

/-- The `for i in I:` loop of `learn`: return the first candidate that
passes the vigilance test, or `none` when the loop falls through. -/
def vigilSearch (Wb : List (List ℚ)) (rho : ℚ) (X : List ℚ) : List ℕ → Option ℕ
  | [] => none
  | i :: rest =>
    if resonates Wb rho X i then some i else vigilSearch Wb rho X rest

/-- The learning update on a category `i` (lines run in both the resonance
and the commit branch): `self.Wb[:,i] *= X` then
`self.Wf[i,:] = self.Wb[:,i]/(0.5+self.Wb[:,i].sum())`. -/
def learnUpdate (a : ART) (X : List ℚ) (i : ℕ) : ART :=
  let col := hadamard (a.Wb.getD i []) X
  { a with
    Wb := a.Wb.set i col
    Wf := a.Wf.set i (col.map (fun w => w / (1/2 + col.sum))) }

/-- The only exception `learn` can raise: the `ValueError` of
`np.dot(self.Wf, X)` when `len(X) ≠ n`. -/
inductive LearnError where
  | shapeMismatch
  deriving DecidableEq

deriving instance DecidableEq for Except

/-- `ART.learn(X)`, line by line: overwrite `F2` with `np.dot(Wf, X)`,
rank the first `active` activations in descending order, search them for
a resonant category and update it; otherwise commit the category at index
`active` when `active < F2.size`; otherwise return `(None, None)`. -/
def learn (a : ART) (X : List ℚ) : Except LearnError (ART × Option (List ℚ) × Option ℕ) :=
  if X.length = a.n then
    let a1 : ART := { a with F2 := activations a.Wf X }
    match vigilSearch a1.Wb a1.rho X (rankDesc (a1.F2.take a1.active)) with
    | some i =>
      let a2 := learnUpdate a1 X i
      .ok (a2, some (a2.Wb.getD i []), some i)
    | none =>
      if a1.active < a1.F2.length then
        let i := a1.active
        let a2 := learnUpdate a1 X i
        .ok ({ a2 with active := a2.active + 1 }, some (a2.Wb.getD i []), some i)
      else
        .ok (a1, none, none)
  else
    .error .shapeMismatch

/-- The state after one `learn` call; a raised exception leaves the state
unchanged (the `ValueError` occurs before any assignment). -/
def learnStep (a : ART) (X : List ℚ) : ART :=
  match learn a X with
  | .ok (a1, _, _) => a1
  | .error _ => a

/-- The state after a sequence of `learn` calls. -/
def learnSeq (a : ART) (Xs : List (List ℚ)) : ART :=
  Xs.foldl learnStep a

/-- `ART.__init__(n, m, rho)`: `F1`/`F2` all ones, `active = 0`.  The
random initial weight matrices (`np.random.random`) are supplied by the
caller's random source, here as parameters. -/
def ART.init (n m : ℕ) (rho : ℚ) (Wf0 Wb0 : List (List ℚ)) : ART :=
  { n := n, m := m, rho := rho
    F1 := List.replicate n 1, F2 := List.replicate m 1
    Wf := Wf0, Wb := Wb0, active := 0 }

/-- Shape well-formedness of a network state, as established by
`ART.__init__` (with weight matrices of the declared shapes) and
preserved by `learn`. -/
structure WF (a : ART) : Prop where
  hF1 : a.F1.length = a.n
  hF2 : a.F2.length = a.m
  hWf : a.Wf.length = a.m
  hWfrow : ∀ r ∈ a.Wf, r.length = a.n
  hWb : a.Wb.length = a.m
  hWbcol : ∀ c ∈ a.Wb, c.length = a.n
  hactive : a.active ≤ a.m

/-! Helper lemmas about lists, the ranking, the vigilance search, and the
three branches of `learn`. -/

theorem getD_set_self {α : Type} (l : List α) (i : ℕ) (x d : α) (h : i < l.length) :
    (l.set i x).getD i d = x := by
  simp [List.getD_eq_getElem?_getD, List.getElem?_set_self, h]

theorem getD_set_of_ne {α : Type} (l : List α) {i j : ℕ} (x : α) (d : α) (h : j ≠ i) :
    (l.set i x).getD j d = l.getD j d := by
  simp [List.getD_eq_getElem?_getD, List.getElem?_set_ne (Ne.symm h)]

theorem getD_take_of_lt {α : Type} (l : List α) {n i : ℕ} (d : α) (h : i < n) :
    (l.take n).getD i d = l.getD i d := by
  simp [List.getD_eq_getElem?_getD, List.getElem?_take, h]

theorem length_activations (Wf : List (List ℚ)) (X : List ℚ) :
    (activations Wf X).length = Wf.length :=
  List.length_map _ _

theorem rankDesc_perm (keys : List ℚ) : (rankDesc keys).Perm (List.range keys.length) :=
  List.perm_insertionSort _ _

theorem rankDesc_sorted (keys : List ℚ) : (rankDesc keys).Sorted (rankRel keys) :=
  List.sorted_insertionSort _ _

theorem mem_rankDesc {keys : List ℚ} {i : ℕ} : i ∈ rankDesc keys ↔ i < keys.length := by
  rw [(rankDesc_perm keys).mem_iff, List.mem_range]

theorem vigilSearch_eq_none_iff (Wb : List (List ℚ)) (rho : ℚ) (X : List ℚ) (l : List ℕ) :
    vigilSearch Wb rho X l = none ↔ ∀ i ∈ l, ¬ resonates Wb rho X i := by
  induction l with
  | nil => simp [vigilSearch]
  | cons a l ih => by_cases h : resonates Wb rho X a <;> simp [vigilSearch, h, ih]

theorem vigilSearch_eq_some {Wb : List (List ℚ)} {rho : ℚ} {X : List ℚ} {l : List ℕ} {i : ℕ}
    (h : vigilSearch Wb rho X l = some i) :
    ∃ l1 l2, l = l1 ++ i :: l2 ∧ (∀ j ∈ l1, ¬ resonates Wb rho X j) ∧ resonates Wb rho X i := by
  induction l with
  | nil => simp [vigilSearch] at h
  | cons a l ih =>
    by_cases ha : resonates Wb rho X a
    · simp only [vigilSearch, if_pos ha, Option.some.injEq] at h
      subst h
      exact ⟨[], l, rfl, by simp, ha⟩
    · simp only [vigilSearch, if_neg ha] at h
      obtain ⟨l1, l2, rfl, h1, h2⟩ := ih h
      refine ⟨a :: l1, l2, rfl, ?_, h2⟩
      intro j hj
      rcases List.mem_cons.1 hj with rfl | hj
      · exact ha
      · exact h1 j hj

theorem learn_resonant {a : ART} {X : List ℚ} {i : ℕ} (hX : X.length = a.n)
    (hs : vigilSearch a.Wb a.rho X (rankDesc ((activations a.Wf X).take a.active)) = some i) :
    learn a X = .ok (learnUpdate { a with F2 := activations a.Wf X } X i,
      some ((learnUpdate { a with F2 := activations a.Wf X } X i).Wb.getD i []),
      some i) := by
  unfold learn
  rw [if_pos hX]
  dsimp only
  rw [hs]

theorem learn_commit {a : ART} {X : List ℚ} (hX : X.length = a.n)
    (hs : vigilSearch a.Wb a.rho X (rankDesc ((activations a.Wf X).take a.active)) = none)
    (hcap : a.active < (activations a.Wf X).length) :
    learn a X = .ok
      ({ learnUpdate { a with F2 := activations a.Wf X } X a.active with active := a.active + 1 },
       some ((learnUpdate { a with F2 := activations a.Wf X } X a.active).Wb.getD a.active []),
       some a.active) := by
  unfold learn
  rw [if_pos hX]
  dsimp only
  rw [hs]
  dsimp only
  rw [if_pos hcap]
  rfl

theorem learn_exhausted {a : ART} {X : List ℚ} (hX : X.length = a.n)
    (hs : vigilSearch a.Wb a.rho X (rankDesc ((activations a.Wf X).take a.active)) = none)
    (hcap : ¬ a.active < (activations a.Wf X).length) :
    learn a X = .ok ({ a with F2 := activations a.Wf X }, none, none) := by
  unfold learn
  rw [if_pos hX]
  dsimp only
  rw [hs]
  dsimp only
  rw [if_neg hcap]

theorem learn_shape_error {a : ART} {X : List ℚ} (hX : X.length ≠ a.n) :
    learn a X = .error .shapeMismatch := by
  unfold learn
  rw [if_neg hX]

theorem learnUpdate_Wb_getD (a : ART) (X : List ℚ) {i : ℕ} (h : i < a.Wb.length) :
    (learnUpdate a X i).Wb.getD i [] = hadamard (a.Wb.getD i []) X :=
  getD_set_self _ _ _ _ h

theorem learnUpdate_Wf_getD (a : ART) (X : List ℚ) {i : ℕ} (h : i < a.Wf.length) :
    (learnUpdate a X i).Wf.getD i [] =
      (hadamard (a.Wb.getD i []) X).map
        (fun w => w / (1/2 + (hadamard (a.Wb.getD i []) X).sum)) :=
  getD_set_self _ _ _ _ h

theorem learnUpdate_Wb_getD_ne (a : ART) (X : List ℚ) {i j : ℕ} (h : j ≠ i) :
    (learnUpdate a X i).Wb.getD j [] = a.Wb.getD j [] :=
  getD_set_of_ne _ _ _ h

theorem learnUpdate_Wf_getD_ne (a : ART) (X : List ℚ) {i j : ℕ} (h : j ≠ i) :
    (learnUpdate a X i).Wf.getD j [] = a.Wf.getD j [] :=
  getD_set_of_ne _ _ _ h

theorem resonant_lt_active {a : ART} {X : List ℚ} {i : ℕ}
    (hs : vigilSearch a.Wb a.rho X (rankDesc ((activations a.Wf X).take a.active)) = some i) :
    i < a.active := by
  obtain ⟨l1, l2, heq, -, -⟩ := vigilSearch_eq_some hs
  have hm : i ∈ rankDesc ((activations a.Wf X).take a.active) := by
    rw [heq]; simp
  rw [mem_rankDesc, List.length_take] at hm
  exact lt_of_lt_of_le hm (min_le_left _ _)

theorem search_none_of_nores {a : ART} {X : List ℚ}
    (h : ∀ i < a.active, ¬ resonates a.Wb a.rho X i) :
    vigilSearch a.Wb a.rho X (rankDesc ((activations a.Wf X).take a.active)) = none := by
  rw [vigilSearch_eq_none_iff]
  intro i hi
  rw [mem_rankDesc, List.length_take] at hi
  exact h i (lt_of_lt_of_le hi (min_le_left _ _))

theorem wf_setF2 {a : ART} (hwf : WF a) (X : List ℚ) :
    WF { a with F2 := activations a.Wf X } := by
  obtain ⟨hF1, hF2, hWf, hWfrow, hWb, hWbcol, hactive⟩ := hwf
  exact ⟨hF1, by simpa [length_activations] using hWf, hWf, hWfrow, hWb, hWbcol, hactive⟩

theorem wf_learnUpdate {a : ART} {X : List ℚ} {i : ℕ} (hwf : WF a) (hX : X.length = a.n)
    (hi : i < a.m) : WF (learnUpdate a X i) := by
  obtain ⟨hF1, hF2, hWf, hWfrow, hWb, hWbcol, hactive⟩ := hwf
  have hiWb : i < a.Wb.length := by rw [hWb]; exact hi
  have hiWf : i < a.Wf.length := by rw [hWf]; exact hi
  have hcol : (a.Wb.getD i []).length = a.n := by
    rw [List.getD_eq_getElem _ _ hiWb]
    exact hWbcol _ (List.getElem_mem hiWb)
  have hhad : (hadamard (a.Wb.getD i []) X).length = a.n := by
    rw [hadamard, List.length_zipWith, hcol, hX, min_self]
  refine ⟨hF1, hF2, by simp only [learnUpdate]; simpa using hWf, ?_,
    by simp only [learnUpdate]; simpa using hWb, ?_, hactive⟩
  · intro r hr
    rcases List.mem_or_eq_of_mem_set hr with hr | rfl
    · exact hWfrow r hr
    · rw [List.length_map]; exact hhad
  · intro c hc
    rcases List.mem_or_eq_of_mem_set hc with hc | rfl
    · exact hWbcol c hc
    · exact hhad

theorem learnStep_cases (a : ART) (X : List ℚ) :
    learnStep a X = a ∨
    learnStep a X = { a with F2 := activations a.Wf X } ∨
    (∃ i, i < a.active ∧
      learnStep a X = learnUpdate { a with F2 := activations a.Wf X } X i) ∨
    (a.active < a.Wf.length ∧
      learnStep a X =
        { learnUpdate { a with F2 := activations a.Wf X } X a.active with
            active := a.active + 1 }) := by
  by_cases hX : X.length = a.n
  · cases hs : vigilSearch a.Wb a.rho X (rankDesc ((activations a.Wf X).take a.active)) with
    | some i =>
      refine Or.inr (Or.inr (Or.inl ⟨i, resonant_lt_active hs, ?_⟩))
      unfold learnStep
      rw [learn_resonant hX hs]
    | none =>
      by_cases hcap : a.active < (activations a.Wf X).length
      · refine Or.inr (Or.inr (Or.inr ⟨by rwa [length_activations] at hcap, ?_⟩))
        unfold learnStep
        rw [learn_commit hX hs hcap]
      · refine Or.inr (Or.inl ?_)
        unfold learnStep
        rw [learn_exhausted hX hs hcap]
  · refine Or.inl ?_
    unfold learnStep
    rw [learn_shape_error hX]

theorem active_le_learnStep (a : ART) (X : List ℚ) : a.active ≤ (learnStep a X).active := by
  rcases learnStep_cases a X with h | h | ⟨i, -, h⟩ | ⟨-, h⟩ <;> rw [h] <;> simp [learnUpdate]

theorem wf_learnStep {a : ART} (hwf : WF a) (X : List ℚ) : WF (learnStep a X) := by
  by_cases hX : X.length = a.n
  · cases hs : vigilSearch a.Wb a.rho X (rankDesc ((activations a.Wf X).take a.active)) with
    | some i =>
      have heq : learnStep a X = learnUpdate { a with F2 := activations a.Wf X } X i := by
        unfold learnStep; rw [learn_resonant hX hs]
      rw [heq]
      exact wf_learnUpdate (wf_setF2 hwf X) hX ((resonant_lt_active hs).trans_le hwf.hactive)
    | none =>
      by_cases hcap : a.active < (activations a.Wf X).length
      · have heq : learnStep a X =
            { learnUpdate { a with F2 := activations a.Wf X } X a.active with
                active := a.active + 1 } := by
          unfold learnStep; rw [learn_commit hX hs hcap]
        rw [heq]
        have hm : a.active < a.m := by rwa [length_activations, hwf.hWf] at hcap
        obtain ⟨h1, h2, h3, h4, h5, h6, -⟩ := wf_learnUpdate (wf_setF2 hwf X) hX hm
        exact ⟨h1, h2, h3, h4, h5, h6, hm⟩
      · have heq : learnStep a X = { a with F2 := activations a.Wf X } := by
          unfold learnStep; rw [learn_exhausted hX hs hcap]
        rw [heq]
        exact wf_setF2 hwf X
  · have heq : learnStep a X = a := by
      unfold learnStep; rw [learn_shape_error hX]
    rw [heq]
    exact hwf

theorem learnStep_m (a : ART) (X : List ℚ) : (learnStep a X).m = a.m := by
  rcases learnStep_cases a X with h | h | ⟨i, -, h⟩ | ⟨-, h⟩ <;> rw [h] <;> rfl

theorem learnSeq_nil (a : ART) : learnSeq a [] = a := rfl

theorem learnSeq_append_singleton (a : ART) (Xs : List (List ℚ)) (X : List ℚ) :
    learnSeq a (Xs ++ [X]) = learnStep (learnSeq a Xs) X := by
  simp [learnSeq, List.foldl_append]

theorem wf_learnSeq {a : ART} (hwf : WF a) (Xs : List (List ℚ)) : WF (learnSeq a Xs) := by
  induction Xs generalizing a with
  | nil => exact hwf
  | cons X Xs ih => exact ih (wf_learnStep hwf X)

theorem learnSeq_m (a : ART) (Xs : List (List ℚ)) : (learnSeq a Xs).m = a.m := by
  induction Xs generalizing a with
  | nil => rfl
  | cons X Xs ih => rw [learnSeq, List.foldl_cons, ← learnSeq, ih, learnStep_m]

/-! Concrete network states used as witnesses and counterexamples.  The
initial weight entries stand for values `np.random.random` can produce in
`(0, 1)`. -/

/-- One-input, one-category network before any learning, `rho = 1/2`. -/
def net0 : ART := ⟨1, 1, 1/2, [1], [1], [[1/2]], [[1/2]], 0⟩

/-- The state `net0` reaches after `learn([1])`. -/
def net0' : ART := ⟨1, 1, 1/2, [1], [1/2], [[1/2]], [[1/2]], 1⟩

/-- One-input, one-category network with its category committed and a
vigilance low enough (`rho = 1/4`) for re-resonance. -/
def net1 : ART := ⟨1, 1, 1/4, [1], [1], [[1/2]], [[1/2]], 1⟩

/-- Fresh high-vigilance (`rho = 9/10`) one-category network. -/
def netHi0 : ART := ⟨1, 1, 9/10, [1], [1], [[1/2]], [[1/2]], 0⟩

/-- The state `netHi0` reaches after `learn([1])`: category 0 carries the
prototype `[1/2]` it just wrote. -/
def netHi1 : ART := ⟨1, 1, 9/10, [1], [1/2], [[1/2]], [[1/2]], 1⟩

/-- Two-category high-vigilance network with one committed category that
does not reach the threshold on input `[1]`. -/
def net2 : ART := ⟨1, 2, 9/10, [1], [1, 1], [[1/2], [1/3]], [[1/2], [1/3]], 1⟩

/-! The claims. -/

/-- C1: on a network with `active ≥ 1`, the candidate list examined by
`learn` is exactly a permutation of the first `active` categories, sorted
in descending order of their activation `F2 = Wf · X`; when the search
returns `i`, every candidate ranked before `i` fails the vigilance test,
`i` passes it, `learn` performs the learning update on `i` and returns the
updated `Wb` column `i` paired with `i`, and no other `Wb` column or `Wf`
row is mutated. -/
theorem c1_descending_search_first_winner {a : ART} {X : List ℚ} {i : ℕ} (hwf : WF a)
    (hX : X.length = a.n) (_hact : 1 ≤ a.active)
    (hs : vigilSearch a.Wb a.rho X (rankDesc ((activations a.Wf X).take a.active)) = some i) :
    (rankDesc ((activations a.Wf X).take a.active)).Perm (List.range a.active) ∧
    (rankDesc ((activations a.Wf X).take a.active)).Sorted
      (fun p q => (activations a.Wf X).getD q 0 ≤ (activations a.Wf X).getD p 0) ∧
    (∃ l1 l2, rankDesc ((activations a.Wf X).take a.active) = l1 ++ i :: l2 ∧
      (∀ j ∈ l1, ¬ resonates a.Wb a.rho X j) ∧ resonates a.Wb a.rho X i) ∧
    learn a X = .ok (learnUpdate { a with F2 := activations a.Wf X } X i,
      some (hadamard (a.Wb.getD i []) X), some i) ∧
    (∀ j, j ≠ i → (learnStep a X).Wb.getD j [] = a.Wb.getD j [] ∧
      (learnStep a X).Wf.getD j [] = a.Wf.getD j []) := by
  have hlen : ((activations a.Wf X).take a.active).length = a.active := by
    rw [List.length_take, length_activations, hwf.hWf]
    exact min_eq_left hwf.hactive
  have hi : i < a.active := resonant_lt_active hs
  have hiWb : i < a.Wb.length := by rw [hwf.hWb]; exact hi.trans_le hwf.hactive
  have hstep : learnStep a X = learnUpdate { a with F2 := activations a.Wf X } X i := by
    unfold learnStep
    rw [learn_resonant hX hs]
  refine ⟨?_, ?_, vigilSearch_eq_some hs, ?_, ?_⟩
  · have h := rankDesc_perm ((activations a.Wf X).take a.active)
    rwa [hlen] at h
  · refine List.Pairwise.imp_of_mem ?_ (rankDesc_sorted _)
    intro p q hp hq hr
    rw [mem_rankDesc, hlen] at hp hq
    unfold rankRel at hr
    rcases hr with h | ⟨h, -⟩
    · have h' := le_of_lt h
      rwa [getD_take_of_lt _ 0 hp, getD_take_of_lt _ 0 hq] at h'
    · have h' := le_of_eq h.symm
      rwa [getD_take_of_lt _ 0 hp, getD_take_of_lt _ 0 hq] at h'
  · rw [learn_resonant hX hs,
        learnUpdate_Wb_getD { a with F2 := activations a.Wf X } X hiWb]
  · intro j hj
    rw [hstep]
    exact ⟨learnUpdate_Wb_getD_ne _ _ hj, learnUpdate_Wf_getD_ne _ _ hj⟩

/-- C1 witness: on `net1` (one committed category, `rho = 1/4`) with input
`[1]`, the search resonates on category 0 and returns its updated
prototype. -/
theorem c1_witness :
    learn net1 [1] = .ok (learnUpdate { net1 with F2 := activations net1.Wf [1] } [1] 0,
      some (hadamard (net1.Wb.getD 0 []) [1]), some 0) :=
  (c1_descending_search_first_winner (by constructor <;> decide) (by decide) (by decide)
    (by with_unfolding_all decide)).2.2.2.1

/-- C2: whenever `learn` returns index `i`, the new `Wb` column `i` is the
element-wise product of the old column with `X`, the new `Wf` row `i` is
the new column divided by `0.5` plus its sum, and the returned prototype
is exactly the new column. -/
theorem c2_learning_update_normalizes {a a' : ART} {X : List ℚ} {p : Option (List ℚ)} {i : ℕ}
    (hwf : WF a) (h : learn a X = .ok (a', p, some i)) :
    a'.Wb.getD i [] = hadamard (a.Wb.getD i []) X ∧
    a'.Wf.getD i [] = (a'.Wb.getD i []).map
      (fun w => w / (1/2 + (a'.Wb.getD i []).sum)) ∧
    p = some (a'.Wb.getD i []) := by
  by_cases hX : X.length = a.n
  · cases hs : vigilSearch a.Wb a.rho X (rankDesc ((activations a.Wf X).take a.active)) with
    | some i' =>
      have hiWb : i' < a.Wb.length := by
        rw [hwf.hWb]
        exact (resonant_lt_active hs).trans_le hwf.hactive
      have hiWf : i' < a.Wf.length := by rw [hwf.hWf, ← hwf.hWb]; exact hiWb
      rw [learn_resonant hX hs] at h
      simp only [Except.ok.injEq, Prod.mk.injEq, Option.some.injEq] at h
      obtain ⟨rfl, rfl, rfl⟩ := h
      refine ⟨learnUpdate_Wb_getD { a with F2 := activations a.Wf X } X hiWb, ?_, rfl⟩
      rw [learnUpdate_Wf_getD { a with F2 := activations a.Wf X } X hiWf,
        learnUpdate_Wb_getD { a with F2 := activations a.Wf X } X hiWb]
    | none =>
      by_cases hcap : a.active < (activations a.Wf X).length
      · have hiWb : a.active < a.Wb.length := by
          rw [hwf.hWb]
          rwa [length_activations, hwf.hWf] at hcap
        have hiWf : a.active < a.Wf.length := by rw [hwf.hWf, ← hwf.hWb]; exact hiWb
        rw [learn_commit hX hs hcap] at h
        simp only [Except.ok.injEq, Prod.mk.injEq, Option.some.injEq] at h
        obtain ⟨rfl, rfl, rfl⟩ := h
        refine ⟨learnUpdate_Wb_getD { a with F2 := activations a.Wf X } X hiWb, ?_, rfl⟩
        rw [learnUpdate_Wf_getD { a with F2 := activations a.Wf X } X hiWf,
          learnUpdate_Wb_getD { a with F2 := activations a.Wf X } X hiWb]
      · rw [learn_exhausted hX hs hcap] at h
        simp at h
  · rw [learn_shape_error hX] at h
    simp at h

/-- C2 witness: committing category 0 of `net0` on input `[1]` writes the
column `[1/2] * [1]` and the normalized row. -/
theorem c2_witness :
    net0'.Wb.getD 0 [] = hadamard (net0.Wb.getD 0 []) [1] ∧
    net0'.Wf.getD 0 [] = (net0'.Wb.getD 0 []).map
      (fun w => w / (1/2 + (net0'.Wb.getD 0 []).sum)) ∧
    some [(1 : ℚ)/2] = some (net0'.Wb.getD 0 []) :=
  c2_learning_update_normalizes (by constructor <;> decide) (by with_unfolding_all decide)

/-- C3: when no active category resonates and spare capacity exists,
`learn` runs the learning update on the fresh index `i = active`,
increments `active` by one, and returns the new prototype paired with
`i`. -/
theorem c3_no_match_commits_new {a : ART} {X : List ℚ} (hwf : WF a) (hX : X.length = a.n)
    (hnores : ∀ i < a.active, ¬ resonates a.Wb a.rho X i) (hcap : a.active < a.m) :
    learn a X = .ok
      ({ learnUpdate { a with F2 := activations a.Wf X } X a.active with
          active := a.active + 1 },
       some (hadamard (a.Wb.getD a.active []) X), some a.active) ∧
    (learnStep a X).active = a.active + 1 := by
  have hs := search_none_of_nores hnores
  have hcap' : a.active < (activations a.Wf X).length := by
    rwa [length_activations, hwf.hWf]
  have hiWb : a.active < a.Wb.length := by rw [hwf.hWb]; exact hcap
  constructor
  · rw [learn_commit hX hs hcap',
        learnUpdate_Wb_getD { a with F2 := activations a.Wf X } X hiWb]
  · unfold learnStep
    rw [learn_commit hX hs hcap']

/-- C3 witness: on `net2` the committed category 0 misses the threshold on
`[1]`, so the call commits category 1 and bumps `active` to 2. -/
theorem c3_witness :
    learn net2 [1] = .ok
      ({ learnUpdate { net2 with F2 := activations net2.Wf [1] } [1] net2.active with
          active := net2.active + 1 },
       some (hadamard (net2.Wb.getD net2.active []) [1]), some net2.active) ∧
    (learnStep net2 [1]).active = net2.active + 1 :=
  c3_no_match_commits_new (by constructor <;> decide) (by decide)
    (by with_unfolding_all decide) (by decide)

/-- C4: when no active category resonates and `active = m`, `learn`
returns `(none, none)` and only overwrites `F2`: `Wb`, `Wf` and `active`
are exactly as before the call. -/
theorem c4_exhaustion_read_only {a : ART} {X : List ℚ} (hwf : WF a) (hX : X.length = a.n)
    (hnores : ∀ i < a.active, ¬ resonates a.Wb a.rho X i) (hfull : a.active = a.m) :
    learn a X = .ok ({ a with F2 := activations a.Wf X }, none, none) ∧
    (learnStep a X).Wb = a.Wb ∧ (learnStep a X).Wf = a.Wf ∧
    (learnStep a X).active = a.active := by
  have hs := search_none_of_nores hnores
  have hcap : ¬ a.active < (activations a.Wf X).length := by
    rw [length_activations, hwf.hWf, hfull]
    exact lt_irrefl _
  have h1 := learn_exhausted hX hs hcap
  refine ⟨h1, ?_, ?_, ?_⟩ <;> (unfold learnStep; rw [h1])

/-- C4 witness: `netHi1` is at capacity and its category misses the
threshold on `[1]`, so the call is read-only apart from `F2`. -/
theorem c4_witness :
    learn netHi1 [1] = .ok ({ netHi1 with F2 := activations netHi1.Wf [1] }, none, none) ∧
    (learnStep netHi1 [1]).Wb = netHi1.Wb ∧ (learnStep netHi1 [1]).Wf = netHi1.Wf ∧
    (learnStep netHi1 [1]).active = netHi1.active :=
  c4_exhaustion_read_only (by constructor <;> decide) (by decide)
    (by with_unfolding_all decide) (by decide)

/-- C5 counterexample: a zero-sum input is not rejected.  On the fresh
network `net0` the all-zero input `[0]` is learned normally: no error is
raised, category 0 is committed on it, and the zero prototype is
returned. -/
theorem c5_counterexample :
    learn net0 [0] = .ok (⟨1, 1, 1/2, [1], [0], [[0]], [[0]], 1⟩, some [0], some 0) := by
  with_unfolding_all decide

/-- C5 amended: `learn` raises exactly on a length mismatch (the
`ValueError` of `np.dot`); a zero-sum input is not validated and never by
itself makes the call fail. -/
theorem c5_error_iff_length_mismatch (a : ART) (X : List ℚ) :
    learn a X = .error .shapeMismatch ↔ X.length ≠ a.n := by
  constructor
  · intro h
    by_contra hX
    cases hs : vigilSearch a.Wb a.rho X (rankDesc ((activations a.Wf X).take a.active)) with
    | some i =>
      rw [learn_resonant hX hs] at h
      simp at h
    | none =>
      by_cases hcap : a.active < (activations a.Wf X).length
      · rw [learn_commit hX hs hcap] at h
        simp at h
      · rw [learn_exhausted hX hs hcap] at h
        simp at h
  · exact learn_shape_error

/-- C6: after construction `active` is 0; across any sequence of `learn`
calls it never decreases (appending one more call can only keep or raise
it) and always satisfies `0 ≤ active ≤ m`. -/
theorem c6_active_monotone_bounded (n m : ℕ) (rho : ℚ) (Wf0 Wb0 : List (List ℚ))
    (hWf0 : Wf0.length = m) (hWf0r : ∀ r ∈ Wf0, r.length = n)
    (hWb0 : Wb0.length = m) (hWb0c : ∀ c ∈ Wb0, c.length = n)
    (Xs : List (List ℚ)) (X : List ℚ) :
    (ART.init n m rho Wf0 Wb0).active = 0 ∧
    (learnSeq (ART.init n m rho Wf0 Wb0) Xs).active ≤
      (learnSeq (ART.init n m rho Wf0 Wb0) (Xs ++ [X])).active ∧
    0 ≤ (learnSeq (ART.init n m rho Wf0 Wb0) Xs).active ∧
    (learnSeq (ART.init n m rho Wf0 Wb0) Xs).active ≤ m := by
  have hwf : WF (ART.init n m rho Wf0 Wb0) :=
    ⟨by simp [ART.init], by simp [ART.init], hWf0, hWf0r, hWb0, hWb0c, Nat.zero_le m⟩
  refine ⟨rfl, ?_, Nat.zero_le _, ?_⟩
  · rw [learnSeq_append_singleton]
    exact active_le_learnStep _ _
  · have h := (wf_learnSeq hwf Xs).hactive
    rwa [learnSeq_m] at h

/-- C6 witness: a one-slot network trained on `[[1]]` and then once more
on `[1]`. -/
theorem c6_witness :
    (ART.init 1 1 (1/2) [[1/2]] [[1/2]]).active = 0 ∧
    (learnSeq (ART.init 1 1 (1/2) [[1/2]] [[1/2]]) [[1]]).active ≤
      (learnSeq (ART.init 1 1 (1/2) [[1/2]] [[1/2]]) ([[1]] ++ [[1]])).active ∧
    0 ≤ (learnSeq (ART.init 1 1 (1/2) [[1/2]] [[1/2]]) [[1]]).active ∧
    (learnSeq (ART.init 1 1 (1/2) [[1/2]] [[1/2]]) [[1]]).active ≤ 1 :=
  c6_active_monotone_bounded 1 1 (1/2) [[1/2]] [[1/2]]
    (by decide) (by decide) (by decide) (by decide) [[1]] [1]

/-- C7 counterexample: prototypes are fractional, so re-presenting the
prototype most recently written for a category need not resonate.  On the
fresh high-vigilance network `netHi0`, learning `[1]` writes prototype
`[1/2]` for category 0 (state `netHi1`); feeding that exact prototype back
yields the match ratio `(1/2 * 1/2) / (1/2) = 1/2 < 9/10`, so the call
returns `(none, none)` instead of index 0. -/
theorem c7_counterexample :
    learn netHi0 [1] = .ok (netHi1, some [1/2], some 0) ∧
    learn netHi1 [1/2] = .ok ({ netHi1 with F2 := [1/4] }, none, none) := by
  constructor <;> with_unfolding_all decide

/-- C7 amended: re-presenting the prototype `P = Wb[:,0]` of the single
active category matches that category again and returns index 0 provided
the self-match ratio `sum(P*P)/sum(P)` reaches `rho` (for fractional
prototypes it can fall below `rho`, as the counterexample shows; nothing
guarantees it is maximal). -/
theorem c7_self_match_represent {a : ART} (hwf : WF a) (hact : a.active = 1)
    (hsum : (a.Wb.getD 0 []).sum ≠ 0)
    (hmatch : a.rho ≤ dot (a.Wb.getD 0 []) (a.Wb.getD 0 []) / (a.Wb.getD 0 []).sum) :
    learn a (a.Wb.getD 0 []) = .ok
      (learnUpdate { a with F2 := activations a.Wf (a.Wb.getD 0 []) } (a.Wb.getD 0 []) 0,
       some (hadamard (a.Wb.getD 0 []) (a.Wb.getD 0 [])), some 0) := by
  have hm : 1 ≤ a.m := hact ▸ hwf.hactive
  have h0Wb : 0 < a.Wb.length := by rw [hwf.hWb]; exact hm
  have hX : (a.Wb.getD 0 []).length = a.n := by
    rw [List.getD_eq_getElem _ _ h0Wb]
    exact hwf.hWbcol _ (List.getElem_mem h0Wb)
  have hkeys : ((activations a.Wf (a.Wb.getD 0 [])).take a.active).length = 1 := by
    rw [List.length_take, length_activations, hwf.hWf, hact]
    exact min_eq_left hm
  have hrank : rankDesc ((activations a.Wf (a.Wb.getD 0 [])).take a.active) = [0] := by
    unfold rankDesc
    rw [hkeys]
    rfl
  have hres : resonates a.Wb a.rho (a.Wb.getD 0 []) 0 := ⟨hsum, hmatch⟩
  have hs : vigilSearch a.Wb a.rho (a.Wb.getD 0 [])
      (rankDesc ((activations a.Wf (a.Wb.getD 0 [])).take a.active)) = some 0 := by
    rw [hrank]
    unfold vigilSearch
    rw [if_pos hres]
  rw [learn_resonant hX hs,
    learnUpdate_Wb_getD { a with F2 := activations a.Wf (a.Wb.getD 0 []) } _ h0Wb]

/-- C7 witness: on `net1` (`rho = 1/4`), the stored prototype `[1/2]` has
self-match ratio `1/2 ≥ 1/4`, so re-presenting it returns index 0. -/
theorem c7_witness :
    learn net1 (net1.Wb.getD 0 []) = .ok
      (learnUpdate { net1 with F2 := activations net1.Wf (net1.Wb.getD 0 []) }
        (net1.Wb.getD 0 []) 0,
       some (hadamard (net1.Wb.getD 0 []) (net1.Wb.getD 0 [])), some 0) :=
  c7_self_match_represent (by constructor <;> decide) (by decide)
    (by with_unfolding_all decide) (by with_unfolding_all decide)

/-- C9: one `learn` call leaves `n`, `m`, `rho` and `F1` unchanged,
advances `active` by at most 1 and never decreases it, and mutates at most
one `Wb` column together with the `Wf` row of the same index: every other
column and row is exactly as before (only `F2` is freely overwritten).
The embedding is a pure function, reflecting that `learn` performs no
I/O. -/
theorem c9_single_column_frame (a : ART) (X : List ℚ) :
    (learnStep a X).n = a.n ∧ (learnStep a X).m = a.m ∧
    (learnStep a X).rho = a.rho ∧ (learnStep a X).F1 = a.F1 ∧
    a.active ≤ (learnStep a X).active ∧ (learnStep a X).active ≤ a.active + 1 ∧
    ∃ i, ∀ j, j ≠ i →
      (learnStep a X).Wb.getD j [] = a.Wb.getD j [] ∧
      (learnStep a X).Wf.getD j [] = a.Wf.getD j [] := by
  rcases learnStep_cases a X with h | h | ⟨i, -, h⟩ | ⟨-, h⟩ <;> rw [h]
  · exact ⟨rfl, rfl, rfl, rfl, le_refl _, Nat.le_succ _, 0, fun j _ => ⟨rfl, rfl⟩⟩
  · exact ⟨rfl, rfl, rfl, rfl, le_refl _, Nat.le_succ _, 0, fun j _ => ⟨rfl, rfl⟩⟩
  · exact ⟨rfl, rfl, rfl, rfl, le_refl _, Nat.le_succ _, i,
      fun j hj => ⟨learnUpdate_Wb_getD_ne _ _ hj, learnUpdate_Wf_getD_ne _ _ hj⟩⟩
  · exact ⟨rfl, rfl, rfl, rfl, Nat.le_succ _, le_refl _, a.active,
      fun j hj => ⟨learnUpdate_Wb_getD_ne _ _ hj, learnUpdate_Wf_getD_ne _ _ hj⟩⟩

/-- C10: with `active = 0` and `m ≥ 1`, the candidate loop is empty, so no
match ratio (and hence no division by `sum(X)`) is ever computed: for
every length-`n` input — the all-zero input included — and every `rho`,
the call succeeds, commits category 0 (whose update divides only by
`0.5 + sum(Wb[:,0]*X)`, handled totally in `ℚ`), sets `active` to 1 and
returns index 0. -/
theorem c10_first_input_always_committed {a : ART} {X : List ℚ} (hwf : WF a)
    (hX : X.length = a.n) (h0 : a.active = 0) (hm : 1 ≤ a.m) :
    learn a X = .ok
      ({ learnUpdate { a with F2 := activations a.Wf X } X 0 with active := 1 },
       some (hadamard (a.Wb.getD 0 []) X), some 0) := by
  have h0Wb : 0 < a.Wb.length := by rw [hwf.hWb]; exact hm
  have hs : vigilSearch a.Wb a.rho X (rankDesc ((activations a.Wf X).take a.active)) = none := by
    rw [h0]
    rfl
  have hcap : a.active < (activations a.Wf X).length := by
    rw [h0, length_activations, hwf.hWf]
    exact hm
  have h1 := learn_commit hX hs hcap
  rw [h1, h0,
    learnUpdate_Wb_getD { a with F2 := activations a.Wf X, active := 0 } X h0Wb]

/-- C10 witness: the all-zero input on the fresh network `net0` (`rho`
arbitrary at `1/2`) is committed as category 0 without any error. -/
theorem c10_witness :
    learn net0 [0] = .ok
      ({ learnUpdate { net0 with F2 := activations net0.Wf [0] } [0] 0 with active := 1 },
       some (hadamard (net0.Wb.getD 0 []) [0]), some 0) :=
  c10_first_input_always_committed (by constructor <;> decide) (by decide)
    (by decide) (by decide)

end ARTNet
